import Mathlib

/-!
# Verification of the str2go-i18n source rewriter

Shallow embedding of `src/main.go`: the tool walks the Go syntax tree of one
compilation unit, replaces every eligible Han-script string literal by a
structured `i18n.Localizer.MustLocalize(&i18n.LocalizeConfig{...})` call
carrying a deterministically generated message id and the original literal as
the `Other` fallback field, and finally guarantees the go-i18n import when at
least one rewrite happened.

Machine strings are Lean `String`s (Go iterates runes, modelled as `Char`
lists).  The external pinyin library's first-letter transliteration is an
explicit table parameter `Char → Option Char` (the Go call
`pinyin.Pinyin(c, FirstLetter)` yields at most one one-letter reading per
character); `tbl0` below is a small concrete instance used for witnesses.
-/

namespace StrI18n

/-- Text coordinate: line and column, as in go/token.Position. -/
structure Pos where
  line : Nat
  col : Nat
deriving DecidableEq, Repr

/-- A start/end coordinate pair (a comment's or a node's extent). -/
structure Span where
  first : Pos
  last : Pos
deriving DecidableEq, Repr

/-- One comment group of the unit: the spans of its comments, mirroring
`ast.CommentGroup.List`. -/
abbrev CommentGroup := List Span

/-- Character-class membership for the Han script: models the Go regexp
`\p{Han}` on the principal Han unicode blocks (CJK unified ideographs with
extensions A/B/C/D/E/F, compatibility ideographs, and the iteration/zero
marks). -/
def isHan (c : Char) : Bool :=
  (0x3400 ≤ c.toNat && c.toNat ≤ 0x4DBF) ||
  (0x4E00 ≤ c.toNat && c.toNat ≤ 0x9FFF) ||
  (0xF900 ≤ c.toNat && c.toNat ≤ 0xFAFF) ||
  (0x20000 ≤ c.toNat && c.toNat ≤ 0x2A6DF) ||
  (0x2A700 ≤ c.toNat && c.toNat ≤ 0x2EBE0) ||
  (0x2F800 ≤ c.toNat && c.toNat ≤ 0x2FA1F) ||
  c.toNat == 0x3005 || c.toNat == 0x3007

/-- `hasChinese.MatchString s`: the Go regexp `\p{Han}` matches `s` iff some
rune of `s` is Han. -/
def hasChinese (s : String) : Bool :=
  s.data.any isHan

/-- The transliteration table supplied by the external pinyin library:
first-letter reading of a character, `none` when the library has no reading
(`pinyin.Pinyin` returns an empty slice). -/
abbrev PinyinTable := Char → Option Char

/-- `strings.Trim(s, "\"")`: remove all leading and trailing `"` runes. -/
def trimQuotes (s : String) : String :=
  String.mk ((((s.data.dropWhile (fun c => c == '"')).reverse).dropWhile
    (fun c => c == '"')).reverse)

/-- The Go regexp `[a-zA-Z0-9]` on a single rune. -/
def isAsciiAlnum (c : Char) : Bool :=
  (97 ≤ c.toNat && c.toNat ≤ 122) || (65 ≤ c.toNat && c.toNat ≤ 90) ||
    (48 ≤ c.toNat && c.toNat ≤ 57)

/-- The Go regexp `^[a-zA-Z]` applied to a single leading rune. -/
def isAsciiAlpha (c : Char) : Bool :=
  (97 ≤ c.toNat && c.toNat ≤ 122) || (65 ≤ c.toNat && c.toNat ≤ 90)

/-- `strings.ToLower` on a single rune, restricted to the ASCII range in which
the rewriter applies it (it is only reached under the `[a-zA-Z0-9]` filter). -/
def toLowerGo (c : Char) : Char :=
  if 65 ≤ c.toNat && c.toNat ≤ 90 then Char.ofNat (c.toNat + 32) else c

/-- The Han branch of `extractPinyinPrefix`: scan the runes in order, append
the first-letter reading of each Han rune that the table can read, and break
once `count` reaches `maxChars` (the source appends, increments the counter,
then tests `count >= maxChars`). -/
def chineseScan (tbl : PinyinTable) (maxChars : Nat) :
    List Char → Nat → List Char
  | [], _ => []
  | c :: rest, count =>
    if isHan c then
      match tbl c with
      | some p =>
        if count + 1 ≥ maxChars then [p]
        else p :: chineseScan tbl maxChars rest (count + 1)
      | none => chineseScan tbl maxChars rest count
    else chineseScan tbl maxChars rest count

/-- The non-Han branch of `extractPinyinPrefix`: keep ASCII alphanumeric runes
lower-cased, breaking after `maxChars` of them (append, increment, test). -/
def asciiScan (maxChars : Nat) : List Char → Nat → List Char
  | [], _ => []
  | c :: rest, count =>
    if isAsciiAlnum c then
      if count + 1 ≥ maxChars then [toLowerGo c]
      else toLowerGo c :: asciiScan maxChars rest (count + 1)
    else asciiScan maxChars rest count

/-- The final guard of `extractPinyinPrefix`: return the accumulated id when
it is nonempty and starts with an ASCII letter, otherwise the sentinel
`"msg"`. -/
def slugOrMsg (id : List Char) : String :=
  match id with
  | [] => "msg"
  | c :: rest => if isAsciiAlpha c then String.mk (c :: rest) else "msg"

/-- `extractPinyinPrefix(message, maxChars)` from the source: sentinel on the
empty string, strip quotes, then scan either the Han runes (transliterated)
or the ASCII alphanumerics, and apply the final guard. -/
def extractPinyinPrefix (tbl : PinyinTable) (message : String)
    (maxChars : Nat) : String :=
  if message = "" then "msg"
  else if hasChinese (trimQuotes message) then
    slugOrMsg (chineseScan tbl maxChars (trimQuotes message).data 0)
  else slugOrMsg (asciiScan maxChars (trimQuotes message).data 0)

/-- `generateMessageID(message)` from the source: strip quotes, then extract
at most five transliterated characters as the id. -/
def generateMessageID (tbl : PinyinTable) (message : String) : String :=
  extractPinyinPrefix tbl (trimQuotes message) 5

/-- Concrete instance of the pinyin first-letter table, restricted to the
characters exercised by the repository's tests, used for witnesses. -/
def tbl0 : PinyinTable := fun c =>
  if c = '你' then some 'n'
  else if c = '好' then some 'h'
  else if c = '世' then some 's'
  else if c = '界' then some 'j'
  else if c = '中' then some 'z'
  else if c = '文' then some 'w'
  else none

/-- Kind tag of a `go/ast.BasicLit` (`token.STRING` against everything
else; only the string/non-string distinction is consulted). -/
inductive LitKind where
  | string
  | nonString
deriving DecidableEq, Repr

mutual

/-- Go expression nodes of `src/main.go`'s working set.  `basicLit` carries
the raw value (delimiters included, as `ast.BasicLit.Value` does) and its
source span; `selector` keeps the selected name inline (`ast.SelectorExpr.Sel`
is always an identifier); `unaryAnd` is `&x`; `field` is a struct field with
its tag slot; `node` stands for any other node kind with ordered children
(statements, declarations, ...), whose child slots are all plain. -/
inductive Expr where
  | basicLit (kind : LitKind) (value : String) (first : Pos) (last : Pos)
  | ident (name : String)
  | selector (x : Expr) (sel : String)
  | call (fn : Expr) (args : ExprList)
  | unaryAnd (x : Expr)
  | composite (ty : Expr) (elts : ExprList)
  | keyValue (key : Expr) (val : Expr)
  | field (ty : Expr) (tag : Expr)
  | node (tag : String) (children : ExprList)

/-- Ordered child list of a node (Go slices such as `CallExpr.Args`). -/
inductive ExprList where
  | nil
  | cons (head : Expr) (tail : ExprList)

end

/-- Membership test over a child list. -/
def ExprList.any (p : Expr → Bool) : ExprList → Bool
  | .nil => false
  | .cons x rest => p x || ExprList.any p rest

/-- The zero position of nodes manufactured by the rewriter (`token.NoPos`:
fresh `ast.NewIdent`/`ast.BasicLit` nodes carry no source position). -/
def noPos : Pos := ⟨0, 0⟩

/-- Wrap a message id in string-literal delimiters, as the source does when
it builds `"\"" + msgID + "\""`. -/
def quoted (s : String) : String := "\"" ++ s ++ "\""

/-- A freshly manufactured string literal carrying `msgID` (no position). -/
def idLit (msgID : String) : Expr :=
  .basicLit .string (quoted msgID) noPos noPos

/-- The structured replacement node the rewriter builds for an eligible
literal: `i18n.Localizer.MustLocalize(&i18n.LocalizeConfig{MessageID: "id",
DefaultMessage: &i18n.Message{ID: "id", Other: lit}})`, with the original
literal node itself in the `Other` slot. -/
def wrapNode (msgID : String) (lit : Expr) : Expr :=
  .call
    (.selector (.selector (.ident "i18n") "Localizer") "MustLocalize")
    (.cons
      (.unaryAnd (.composite (.selector (.ident "i18n") "LocalizeConfig")
        (.cons (.keyValue (.ident "MessageID") (idLit msgID))
        (.cons (.keyValue (.ident "DefaultMessage")
          (.unaryAnd (.composite (.selector (.ident "i18n") "Message")
            (.cons (.keyValue (.ident "ID") (idLit msgID))
            (.cons (.keyValue (.ident "Other") lit)
            .nil)))))
        .nil))))
      .nil)

/-- The structural context `astutil.Cursor` exposes to the classifier: the
parent node, plus whether the visited node occupies the parent field's tag
slot (rendering the pointer test `field.Tag == cursor.Node()` positionally;
the traversal sets it only when it descends into a `field`'s tag child). -/
structure Ctx where
  parent : Option Expr
  isTagChild : Bool

/-- `isInStructTag(cursor)`: the parent is a field declaration and the node
occupies its tag slot. -/
def isInStructTag (ctx : Ctx) : Bool :=
  match ctx.parent with
  | some (.field _ _) => ctx.isTagChild
  | _ => false

/-- `isWrappedByI18nT(cursor)`: the node is a basic literal whose parent is a
`KeyValueExpr` with key identifier `Other` (the source comments that the
`Other` field is assumed to live in an `i18n.Message`; no enclosing call is
inspected). -/
def isWrappedByI18nT (node : Expr) (parent : Option Expr) : Bool :=
  match node with
  | .basicLit _ _ _ _ =>
    match parent with
    | some (.keyValue (.ident key) _) => key == "Other"
    | _ => false
  | _ => false

/-- `isInComment(node, file, fset)`: some recorded comment span contains the
node's span, comparing (line, column) pairs exactly as the source does. -/
def isInComment (nodeSpan : Span) (comments : List CommentGroup) : Bool :=
  comments.any fun group =>
    group.any fun c =>
      (c.first.line < nodeSpan.first.line ||
        (nodeSpan.first.line == c.first.line && c.first.col ≤ nodeSpan.first.col)) &&
      (nodeSpan.last.line < c.last.line ||
        (nodeSpan.last.line == c.last.line && nodeSpan.last.col ≤ c.last.col))

/-- The skip chain of the `pre` visitor applied to a node: true exactly when
the node is a string literal that is not a struct-tag value, not the `Other`
payload of an already-produced wrap, contains a Han rune, and does not lie
inside a comment (the source returns early in that order). -/
def classifyRewrite (cs : List CommentGroup) (ctx : Ctx) (e : Expr) : Bool :=
  match e with
  | .basicLit kind v first last =>
    kind == .string &&
    !isInStructTag ctx &&
    !isWrappedByI18nT (.basicLit kind v first last) ctx.parent &&
    hasChinese v &&
    !isInComment ⟨first, last⟩ cs
  | _ => false

/-- Result of one traversal step: the (possibly replaced) subtree, whether
some literal in it was rewritten (the `needsImport` accumulation), and the
sequence of nodes on which `pre` was invoked, in visiting order. -/
structure TRes (α : Type) where
  out : α
  hit : Bool
  log : List Expr

mutual

/-- One `astutil.Apply` visit with the `pre` visitor of `transform`: apply
`pre` to the node (replacing an eligible string literal by its wrap), then
walk the children of the original node — a replaced literal has none, so a
fresh replacement subtree is never entered in the same pass. -/
def tExpr (tbl : PinyinTable) (cs : List CommentGroup) (ctx : Ctx) :
    Expr → TRes Expr
  | .basicLit kind v first last =>
    if classifyRewrite cs ctx (.basicLit kind v first last) then
      ⟨wrapNode (generateMessageID tbl v) (.basicLit kind v first last),
        true, [.basicLit kind v first last]⟩
    else ⟨.basicLit kind v first last, false, [.basicLit kind v first last]⟩
  | .ident n => ⟨.ident n, false, [.ident n]⟩
  | .selector x sel =>
    ⟨.selector (tExpr tbl cs ⟨some (.selector x sel), false⟩ x).out sel,
      (tExpr tbl cs ⟨some (.selector x sel), false⟩ x).hit,
      .selector x sel :: (tExpr tbl cs ⟨some (.selector x sel), false⟩ x).log⟩
  | .call fn args =>
    ⟨.call (tExpr tbl cs ⟨some (.call fn args), false⟩ fn).out
        (tList tbl cs (some (.call fn args)) args).out,
      (tExpr tbl cs ⟨some (.call fn args), false⟩ fn).hit ||
        (tList tbl cs (some (.call fn args)) args).hit,
      .call fn args :: ((tExpr tbl cs ⟨some (.call fn args), false⟩ fn).log ++
        (tList tbl cs (some (.call fn args)) args).log)⟩
  | .unaryAnd x =>
    ⟨.unaryAnd (tExpr tbl cs ⟨some (.unaryAnd x), false⟩ x).out,
      (tExpr tbl cs ⟨some (.unaryAnd x), false⟩ x).hit,
      .unaryAnd x :: (tExpr tbl cs ⟨some (.unaryAnd x), false⟩ x).log⟩
  | .composite ty elts =>
    ⟨.composite (tExpr tbl cs ⟨some (.composite ty elts), false⟩ ty).out
        (tList tbl cs (some (.composite ty elts)) elts).out,
      (tExpr tbl cs ⟨some (.composite ty elts), false⟩ ty).hit ||
        (tList tbl cs (some (.composite ty elts)) elts).hit,
      .composite ty elts ::
        ((tExpr tbl cs ⟨some (.composite ty elts), false⟩ ty).log ++
          (tList tbl cs (some (.composite ty elts)) elts).log)⟩
  | .keyValue k v =>
    ⟨.keyValue (tExpr tbl cs ⟨some (.keyValue k v), false⟩ k).out
        (tExpr tbl cs ⟨some (.keyValue k v), false⟩ v).out,
      (tExpr tbl cs ⟨some (.keyValue k v), false⟩ k).hit ||
        (tExpr tbl cs ⟨some (.keyValue k v), false⟩ v).hit,
      .keyValue k v :: ((tExpr tbl cs ⟨some (.keyValue k v), false⟩ k).log ++
        (tExpr tbl cs ⟨some (.keyValue k v), false⟩ v).log)⟩
  | .field ty tag =>
    ⟨.field (tExpr tbl cs ⟨some (.field ty tag), false⟩ ty).out
        (tExpr tbl cs ⟨some (.field ty tag), true⟩ tag).out,
      (tExpr tbl cs ⟨some (.field ty tag), false⟩ ty).hit ||
        (tExpr tbl cs ⟨some (.field ty tag), true⟩ tag).hit,
      .field ty tag :: ((tExpr tbl cs ⟨some (.field ty tag), false⟩ ty).log ++
        (tExpr tbl cs ⟨some (.field ty tag), true⟩ tag).log)⟩
  | .node tag children =>
    ⟨.node tag (tList tbl cs (some (.node tag children)) children).out,
      (tList tbl cs (some (.node tag children)) children).hit,
      .node tag children :: (tList tbl cs (some (.node tag children)) children).log⟩

/-- Visit the elements of a child list in order under the given parent. -/
def tList (tbl : PinyinTable) (cs : List CommentGroup) (parent : Option Expr) :
    ExprList → TRes ExprList
  | .nil => ⟨.nil, false, []⟩
  | .cons x rest =>
    ⟨.cons (tExpr tbl cs ⟨parent, false⟩ x).out (tList tbl cs parent rest).out,
      (tExpr tbl cs ⟨parent, false⟩ x).hit || (tList tbl cs parent rest).hit,
      (tExpr tbl cs ⟨parent, false⟩ x).log ++ (tList tbl cs parent rest).log⟩

end

mutual

/-- Document pre-order enumeration of a subtree, defined from the tree alone
(node first, then the children left to right) — the order in which
`astutil.Apply` invokes the `pre` visitor. -/
def preorder : Expr → List Expr
  | .basicLit kind v first last => [.basicLit kind v first last]
  | .ident n => [.ident n]
  | .selector x sel => .selector x sel :: preorder x
  | .call fn args => .call fn args :: (preorder fn ++ preorderList args)
  | .unaryAnd x => .unaryAnd x :: preorder x
  | .composite ty elts => .composite ty elts :: (preorder ty ++ preorderList elts)
  | .keyValue k v => .keyValue k v :: (preorder k ++ preorder v)
  | .field ty tag => .field ty tag :: (preorder ty ++ preorder tag)
  | .node tag children => .node tag children :: preorderList children

/-- Pre-order enumeration of a child list. -/
def preorderList : ExprList → List Expr
  | .nil => []
  | .cons x rest => preorder x ++ preorderList rest

end

deriving instance DecidableEq for Expr, ExprList

/-- The go-i18n dependency path of `ensureI18nImport`. -/
def importPath : String := "github.com/nicksnyder/go-i18n/v2/i18n"

/-- `ensureI18nImport(file, fset)`: scan the unit's import paths for an exact
match and append the declaration when absent (`astutil.AddImport`). -/
def ensureI18nImport (imports : List String) : List String :=
  if imports.any (fun v => v == quoted importPath) then imports
  else imports ++ [quoted importPath]

/-- One compilation unit: the ordered declarations (as generic subtrees), the
paths of the imports (raw literal values with quotes, `ImportSpec.Path.Value`),
and the per-comment spans retained from parsing. -/
structure File where
  decls : ExprList
  imports : List String
  comments : List CommentGroup
deriving DecidableEq

/-- `transform(file, fset)`: one pre-order pass of the `pre` visitor over the
declarations, then `ensureI18nImport` exactly when some literal was rewritten.
The result also exposes the rewrite flag and the visit log. -/
def transformFile (tbl : PinyinTable) (f : File) : TRes File :=
  if (tList tbl f.comments none f.decls).hit then
    ⟨⟨(tList tbl f.comments none f.decls).out, ensureI18nImport f.imports,
        f.comments⟩,
      true, (tList tbl f.comments none f.decls).log⟩
  else
    ⟨⟨(tList tbl f.comments none f.decls).out, f.imports, f.comments⟩,
      false, (tList tbl f.comments none f.decls).log⟩

/-! ## Observers used to state the claims -/

/-- Whether a node is a key-value pair keyed by the identifier `Other`. -/
def isOtherKeyPair (e : Expr) : Bool :=
  match e with
  | .keyValue (.ident k) _ => k == "Other"
  | _ => false

/-- Whether an optional parent is an `Other`-keyed pair. -/
def isOtherParentB (p : Option Expr) : Bool :=
  match p with
  | some e => isOtherKeyPair e
  | none => false

/-- Whether a node is a struct field declaration. -/
def isFieldNode (e : Expr) : Bool :=
  match e with
  | .field _ _ => true
  | _ => false

/-- Whether a node is the identifier `Other`. -/
def isOtherIdent (e : Expr) : Bool :=
  match e with
  | .ident n => n == "Other"
  | _ => false

/-- The two contexts agree on everything the classifier consults: the tag-slot
flag, whether the parent is a field, and whether it is an `Other`-keyed pair. -/
def CtxCompat (a b : Ctx) : Prop :=
  a.isTagChild = b.isTagChild ∧
  (match a.parent with | some (.field _ _) => true | _ => false) =
    (match b.parent with | some (.field _ _) => true | _ => false) ∧
  isOtherParentB a.parent = isOtherParentB b.parent

/-- Look up the value bound to an identifier key in a composite's element
list. -/
def kvValueFor (key : String) : ExprList → Option Expr
  | .nil => none
  | .cons (.keyValue (.ident k) v) rest =>
    if k == key then some v else kvValueFor key rest
  | .cons _ rest => kvValueFor key rest

/-- The element list of the `&i18n.LocalizeConfig{...}` composite passed as
the call's first argument. -/
def configElts (e : Expr) : Option ExprList :=
  match e with
  | .call _ (.cons (.unaryAnd (.composite _ elts)) _) => some elts
  | _ => none

/-- The element list of the `&i18n.Message{...}` composite bound to
`DefaultMessage`. -/
def messageElts (e : Expr) : Option ExprList :=
  match (configElts e).bind (kvValueFor "DefaultMessage") with
  | some (.unaryAnd (.composite _ elts)) => some elts
  | _ => none

/-- The lookup key of a structured call: the `MessageID` value. -/
def messageIDOf (e : Expr) : Option Expr :=
  (configElts e).bind (kvValueFor "MessageID")

/-- The fallback-message identifier of a structured call: the inner `ID`. -/
def innerIDOf (e : Expr) : Option Expr :=
  (messageElts e).bind (kvValueFor "ID")

/-- The fallback-text payload of a structured call: the inner `Other` value. -/
def fallbackOf (e : Expr) : Option Expr :=
  (messageElts e).bind (kvValueFor "Other")

/-- Whether an argument expression is a composite value carrying an
`Other`-style key (possibly through the address-of operator). -/
def argCompositeWithOther (arg : Expr) : Bool :=
  match arg with
  | .composite _ elts => elts.any isOtherKeyPair
  | .unaryAnd (.composite _ elts) => elts.any isOtherKeyPair
  | _ => false

/-- Whether a node is a call expression whose argument is a composite value
carrying an `Other`-style key. -/
def isCallWithCompositeOther (e : Expr) : Bool :=
  match e with
  | .call _ args => args.any argCompositeWithOther
  | _ => false

/-- Follows the spec's words for classifier rule 2 (4.2): the literal
occupies the fallback-text slot of an already-produced structured call,
"recognized by its enclosing shape: a call whose argument is a composite
value with an Other-style key".  `ancestors` is the literal's chain of
enclosing nodes, innermost first. -/
def specAlreadyWrapped (ancestors : List Expr) : Bool :=
  (match ancestors with
   | .keyValue (.ident "Other") _ :: _ => true
   | _ => false) &&
  ancestors.any isCallWithCompositeOther

/-- The qualifying characters of a stripped text, per the ID Generator spec:
the transliterations of its Han characters when one is present, otherwise its
ASCII alphanumerics lower-cased. -/
def qualifyingChars (tbl : PinyinTable) (m : String) : List Char :=
  if hasChinese m then
    m.data.filterMap fun c => if isHan c then tbl c else none
  else
    m.data.filterMap fun c =>
      if isAsciiAlnum c then some (toLowerGo c) else none

/-- The slug derived from a stripped text before the final guard: the Han
branch's transliteration scan when a Han rune is present, else the ASCII
branch's scan (both capped at five appended characters). -/
def rawSlug (tbl : PinyinTable) (m : String) : List Char :=
  if hasChinese m then chineseScan tbl 5 m.data 0 else asciiScan 5 m.data 0

/-- A concrete Han string literal (the repository's own end-to-end test
text), used in witnesses and counterexamples. -/
def litHello : Expr := .basicLit .string "\"你好世界\"" ⟨3, 7⟩ ⟨3, 15⟩

/-- A unit whose single statement carries `litHello`. -/
def fileHello : File :=
  ⟨.cons (.node "assign" (.cons litHello .nil)) .nil, [], []⟩

/-- A unit that already imports the dependency and contains no literal. -/
def fileImported : File := ⟨.nil, [quoted importPath], []⟩

/-- A unit holding an `Other`-keyed pair inside a plain composite literal,
enclosed in no call. -/
def fileOtherNoCall : File :=
  ⟨.cons (.composite (.ident "T")
    (.cons (.keyValue (.ident "Other") litHello) .nil)) .nil, [], []⟩

/-- Lexicographic order on text coordinates, as the spec words it. -/
def PosLE (a b : Pos) : Prop :=
  a.line < b.line ∨ (a.line = b.line ∧ a.col ≤ b.col)

/-! ## Character-level facts -/

theorem isHan_small {c : Char} (h : c.toNat < 0x3005) : isHan c = false := by
  simp only [isHan, Bool.or_eq_false_iff, Bool.and_eq_false_iff,
    decide_eq_false_iff_not, not_le, beq_eq_false_iff_ne, ne_eq]
  omega

theorem charOfNatAux_toNat (n : Nat) (hv : n.isValidChar) :
    (Char.ofNatAux n hv).toNat = n := by
  simp [Char.ofNatAux, Char.toNat, UInt32.toNat, UInt32.ofNatCore]

theorem toLowerGo_nonHan {c : Char} (h : isAsciiAlnum c = true) :
    isHan (toLowerGo c) = false := by
  apply isHan_small
  simp only [isAsciiAlnum, Bool.or_eq_true, Bool.and_eq_true,
    decide_eq_true_eq] at h
  unfold toLowerGo
  split
  next hif =>
    simp only [Bool.and_eq_true, decide_eq_true_eq] at hif
    have hv : (c.toNat + 32).isValidChar := by
      constructor
      omega
    rw [Char.ofNat, dif_pos hv, charOfNatAux_toNat]
    omega
  next => omega

theorem asciiScan_nonHan (maxChars : Nat) :
    ∀ (l : List Char) (n : Nat) (c : Char),
      c ∈ asciiScan maxChars l n → isHan c = false
  | [], n, c, h => by simp [asciiScan] at h
  | x :: rest, n, c, h => by
    unfold asciiScan at h
    by_cases hx : isAsciiAlnum x
    · rw [if_pos hx] at h
      by_cases hge : n + 1 ≥ maxChars
      · rw [if_pos hge] at h
        simp only [List.mem_singleton] at h
        subst h
        exact toLowerGo_nonHan hx
      · rw [if_neg hge] at h
        rcases List.mem_cons.mp h with h1 | h2
        · subst h1
          exact toLowerGo_nonHan hx
        · exact asciiScan_nonHan maxChars rest (n + 1) c h2
    · rw [if_neg (by simpa using hx)] at h
      exact asciiScan_nonHan maxChars rest n c h

theorem chineseScan_nonHan (tbl : PinyinTable)
    (hT : ∀ c d, tbl c = some d → isHan d = false) (maxChars : Nat) :
    ∀ (l : List Char) (n : Nat) (c : Char),
      c ∈ chineseScan tbl maxChars l n → isHan c = false
  | [], n, c, h => by simp [chineseScan] at h
  | x :: rest, n, c, h => by
    unfold chineseScan at h
    by_cases hx : isHan x
    · rw [if_pos hx] at h
      cases htb : tbl x with
      | some p =>
        simp only [htb] at h
        by_cases hge : n + 1 ≥ maxChars
        · rw [if_pos hge] at h
          simp only [List.mem_singleton] at h
          subst h
          exact hT x c htb
        · rw [if_neg hge] at h
          rcases List.mem_cons.mp h with h1 | h2
          · subst h1
            exact hT x c htb
          · exact chineseScan_nonHan tbl hT maxChars rest (n + 1) c h2
      | none =>
        simp only [htb] at h
        exact chineseScan_nonHan tbl hT maxChars rest n c h
    · rw [if_neg (by simpa using hx)] at h
      exact chineseScan_nonHan tbl hT maxChars rest n c h

theorem msg_nonHan : ∀ c ∈ ("msg" : String).data, isHan c = false := by
  intro c hc
  have hdata : ("msg" : String).data = ['m', 's', 'g'] := rfl
  rw [hdata] at hc
  simp only [List.mem_cons, List.not_mem_nil, or_false] at hc
  rcases hc with rfl | rfl | rfl <;> decide

theorem slugOrMsg_nonHan :
    ∀ (id : List Char), (∀ c ∈ id, isHan c = false) →
      ∀ c ∈ (slugOrMsg id).data, isHan c = false
  | [], _ => msg_nonHan
  | x :: rest, h => by
    show ∀ c ∈ (if isAsciiAlpha x = true then ({ data := x :: rest } : String)
      else "msg").data, isHan c = false
    by_cases hx : isAsciiAlpha x = true
    · rw [if_pos hx]
      intro c hc
      exact h c hc
    · rw [if_neg hx]
      exact msg_nonHan

theorem generateMessageID_nonHan (tbl : PinyinTable)
    (hT : ∀ c d, tbl c = some d → isHan d = false) (v : String) :
    ∀ c ∈ (generateMessageID tbl v).data, isHan c = false := by
  unfold generateMessageID extractPinyinPrefix
  split
  · exact msg_nonHan
  · split
    · exact slugOrMsg_nonHan _ fun c hc =>
        chineseScan_nonHan tbl hT 5 _ 0 c hc
    · exact slugOrMsg_nonHan _ fun c hc =>
        asciiScan_nonHan 5 _ 0 c hc

theorem hasChinese_quoted {id : String}
    (h : ∀ c ∈ id.data, isHan c = false) : hasChinese (quoted id) = false := by
  unfold hasChinese quoted
  have hdata : ("\"" ++ id ++ "\"").data = '"' :: id.data ++ ['"'] := by
    simp [String.data_append]
  rw [hdata]
  simp only [List.any_eq_false]
  intro c hc
  rcases List.mem_cons.mp hc with h1 | h2
  · subst h1
    decide
  · rcases List.mem_append.mp h2 with h3 | h4
    · simp [h c h3]
    · simp only [List.mem_singleton] at h4
      subst h4
      decide

/-! ## Quote-stripping facts -/

theorem trimQuotes_data (s : String) :
    (trimQuotes s).data =
      List.rdropWhile (fun c => c == '"')
        (List.dropWhile (fun c => c == '"') s.data) := rfl

theorem trimQuotes_idem (s : String) :
    trimQuotes (trimQuotes s) = trimQuotes s := by
  have hdrop :
      List.dropWhile (fun c => c == '"') (trimQuotes s).data =
        (trimQuotes s).data := by
    rw [List.dropWhile_eq_self_iff]
    intro hl
    have hpre := List.rdropWhile_prefix (fun c => c == '"')
      (List.dropWhile (fun c => c == '"') s.data)
    rw [← trimQuotes_data] at hpre
    have hl' : 0 < (List.dropWhile (fun c => c == '"') s.data).length :=
      lt_of_lt_of_le hl hpre.length_le
    have hget := List.dropWhile_get_zero_not (fun c => c == '"') s.data hl'
    have heq : (trimQuotes s).data.get ⟨0, hl⟩ =
        (List.dropWhile (fun c => c == '"') s.data).get ⟨0, hl'⟩ := by
      simpa using List.IsPrefix.getElem hpre (by simpa using hl)
    rw [heq]
    exact hget
  have : (trimQuotes (trimQuotes s)).data = (trimQuotes s).data := by
    rw [trimQuotes_data (trimQuotes s), hdrop, trimQuotes_data s,
      List.rdropWhile_idempotent]
  calc trimQuotes (trimQuotes s) = String.mk (trimQuotes (trimQuotes s)).data := rfl
    _ = String.mk (trimQuotes s).data := by rw [this]
    _ = trimQuotes s := rfl

/-! ## Structure of the two scans -/

theorem chineseScan_eq_take (tbl : PinyinTable) (maxChars : Nat) :
    ∀ (l : List Char) (n : Nat), n < maxChars →
      chineseScan tbl maxChars l n =
        (l.filterMap fun c => if isHan c then tbl c else none).take
          (maxChars - n)
  | [], n, _ => by simp [chineseScan]
  | x :: rest, n, h => by
    unfold chineseScan
    by_cases hx : isHan x = true
    · rw [if_pos hx]
      rcases htb : tbl x with _ | p
      · simp only [htb]
        have hfx : (fun c => if isHan c then tbl c else none) x = none := by
          simp [hx, htb]
        rw [@List.filterMap_cons_none _ _
          (fun c => if isHan c then tbl c else none) x rest hfx]
        exact chineseScan_eq_take tbl maxChars rest n h
      · simp only [htb]
        have hfx : (fun c => if isHan c then tbl c else none) x = some p := by
          simp [hx, htb]
        rw [@List.filterMap_cons_some _ _
          (fun c => if isHan c then tbl c else none) x rest p hfx]
        by_cases hge : n + 1 ≥ maxChars
        · rw [if_pos hge]
          have hm : maxChars - n = 1 := by omega
          rw [hm]
          simp
        · rw [if_neg hge, chineseScan_eq_take tbl maxChars rest (n + 1) (by omega)]
          have hm : maxChars - n = (maxChars - (n + 1)) + 1 := by omega
          rw [hm, List.take_succ_cons]
    · rw [if_neg hx]
      have hfx : (fun c => if isHan c then tbl c else none) x = none := by
        simp [hx]
      rw [@List.filterMap_cons_none _ _
        (fun c => if isHan c then tbl c else none) x rest hfx]
      exact chineseScan_eq_take tbl maxChars rest n h

theorem asciiScan_eq_take (maxChars : Nat) :
    ∀ (l : List Char) (n : Nat), n < maxChars →
      asciiScan maxChars l n =
        (l.filterMap fun c =>
          if isAsciiAlnum c then some (toLowerGo c) else none).take
          (maxChars - n)
  | [], n, _ => by simp [asciiScan]
  | x :: rest, n, h => by
    unfold asciiScan
    by_cases hx : isAsciiAlnum x = true
    · rw [if_pos hx]
      have hfx : (fun c => if isAsciiAlnum c then some (toLowerGo c) else none) x
          = some (toLowerGo x) := by simp [hx]
      rw [@List.filterMap_cons_some _ _
        (fun c => if isAsciiAlnum c then some (toLowerGo c) else none) x rest
        (toLowerGo x) hfx]
      by_cases hge : n + 1 ≥ maxChars
      · rw [if_pos hge]
        have hm : maxChars - n = 1 := by omega
        rw [hm]
        simp
      · rw [if_neg hge, asciiScan_eq_take maxChars rest (n + 1) (by omega)]
        have hm : maxChars - n = (maxChars - (n + 1)) + 1 := by omega
        rw [hm, List.take_succ_cons]
    · rw [if_neg hx]
      have hfx : (fun c => if isAsciiAlnum c then some (toLowerGo c) else none) x
          = none := by simp [hx]
      rw [@List.filterMap_cons_none _ _
        (fun c => if isAsciiAlnum c then some (toLowerGo c) else none) x rest hfx]
      exact asciiScan_eq_take maxChars rest n h

theorem chineseScan_cons (tbl : PinyinTable) (maxChars : Nat) (x : Char)
    (rest : List Char) (n : Nat) :
    chineseScan tbl maxChars (x :: rest) n =
      if isHan x then
        match tbl x with
        | some p =>
          if n + 1 ≥ maxChars then [p]
          else p :: chineseScan tbl maxChars rest (n + 1)
        | none => chineseScan tbl maxChars rest n
      else chineseScan tbl maxChars rest n := rfl

theorem chineseScan_filter (tbl : PinyinTable) (maxChars : Nat) :
    ∀ (l : List Char) (n : Nat),
      chineseScan tbl maxChars l n =
        chineseScan tbl maxChars (l.filter isHan) n
  | [], _ => by simp [chineseScan]
  | x :: rest, n => by
    by_cases hx : isHan x = true
    · rw [List.filter_cons_of_pos hx, chineseScan_cons, chineseScan_cons,
        if_pos hx, if_pos hx]
      rcases htb : tbl x with _ | p
      · simp only [htb]
        exact chineseScan_filter tbl maxChars rest n
      · simp only [htb]
        by_cases hge : n + 1 ≥ maxChars
        · rw [if_pos hge, if_pos hge]
        · rw [if_neg hge, if_neg hge,
            chineseScan_filter tbl maxChars rest (n + 1)]
    · rw [List.filter_cons_of_neg (by simpa using hx), chineseScan_cons,
        if_neg hx]
      exact chineseScan_filter tbl maxChars rest n

/-- The id generator consumes at most the first five qualifying characters. -/
theorem generateMessageID_eq_take (tbl : PinyinTable) (s : String) :
    generateMessageID tbl s =
      slugOrMsg ((qualifyingChars tbl (trimQuotes s)).take 5) := by
  unfold generateMessageID extractPinyinPrefix qualifyingChars
  rw [trimQuotes_idem]
  by_cases h0 : trimQuotes s = ""
  · rw [if_pos h0, h0]
    rfl
  · rw [if_neg h0]
    by_cases hc : hasChinese (trimQuotes s) = true
    · rw [if_pos hc, if_pos hc, chineseScan_eq_take tbl 5 _ 0 (by omega)]
    · rw [if_neg hc, if_neg hc, asciiScan_eq_take 5 _ 0 (by omega)]

/-- The final guard of the generator, written as the spec's case chain. -/
theorem slugOrMsg_eq_guard (l : List Char) :
    slugOrMsg l =
      if l = [] then "msg"
      else if isAsciiAlpha (l.headD ' ') = false then "msg"
      else String.mk l := by
  match l with
  | [] => rfl
  | c :: rest =>
    show (if isAsciiAlpha c = true then ({ data := c :: rest } : String)
      else "msg") = _
    by_cases ha : isAsciiAlpha c = true
    · rw [if_pos ha]
      simp [ha]
    · rw [if_neg ha]
      simp only [Bool.not_eq_true] at ha
      simp [ha]

/-! ## Claims about the ID Generator and the Comment-Span Index -/

/-- Claim C5: `generateMessageID` is deterministic and satisfies the spec's
examples — `generate("") = "msg"`, `generate("Hello") = "hello"` — and on any
text whose stripped form contains a Han character the slug is built only from
the Han characters' transliterations, the non-Han characters contributing
nothing. -/
theorem claim_c5_generateMessageID_examples :
    (∀ (tbl : PinyinTable) (s : String),
        generateMessageID tbl s = generateMessageID tbl s) ∧
    (∀ tbl : PinyinTable, generateMessageID tbl "" = "msg") ∧
    (∀ tbl : PinyinTable, generateMessageID tbl "Hello" = "hello") ∧
    (∀ (tbl : PinyinTable) (s : String), hasChinese (trimQuotes s) = true →
        generateMessageID tbl s =
          slugOrMsg (chineseScan tbl 5 ((trimQuotes s).data.filter isHan) 0)) := by
  refine ⟨fun _ _ => rfl, fun _ => rfl, fun _ => rfl, fun tbl s hc => ?_⟩
  have h0 : ¬trimQuotes s = "" := by
    intro h
    rw [h] at hc
    exact absurd hc (by decide)
  unfold generateMessageID extractPinyinPrefix
  rw [trimQuotes_idem, if_neg h0, if_pos hc, chineseScan_filter tbl 5 _ 0]

/-- Witness for C5 at the repository's own mixed-content test input. -/
theorem claim_c5_witness :
    hasChinese (trimQuotes "Hello 世界") = true ∧
    generateMessageID tbl0 "Hello 世界" =
      slugOrMsg (chineseScan tbl0 5
        ((trimQuotes "Hello 世界").data.filter isHan) 0) :=
  ⟨by decide,
    claim_c5_generateMessageID_examples.2.2.2 tbl0 "Hello 世界" (by decide)⟩

/-- Claim C6: the slug is built from at most the first five qualifying
characters (Han transliterations when a Han character is present, lower-cased
ASCII alphanumerics otherwise), so two distinct texts that agree on their
first five qualifying characters collide on the same slug, undetected. -/
theorem claim_c6_slug_truncation :
    (∀ (tbl : PinyinTable) (s : String),
        generateMessageID tbl s =
          slugOrMsg ((qualifyingChars tbl (trimQuotes s)).take 5)) ∧
    (("你你你你你好" : String) ≠ ("你你你你你世" : String) ∧
      generateMessageID tbl0 "你你你你你好" =
        generateMessageID tbl0 "你你你你你世") := by
  refine ⟨generateMessageID_eq_take, by decide, by decide⟩

/-- Claim C7: the generator is total and follows the spec's guard chain — a
stripped-empty text, an empty derived slug, or a slug whose first character is
not alphabetic all yield the sentinel `"msg"`, and otherwise the derived slug
is returned unchanged. -/
theorem claim_c7_generateMessageID_guard (tbl : PinyinTable) (s : String) :
    generateMessageID tbl s =
      if trimQuotes s = "" then "msg"
      else if rawSlug tbl (trimQuotes s) = [] then "msg"
      else if isAsciiAlpha ((rawSlug tbl (trimQuotes s)).headD ' ') = false
        then "msg"
      else String.mk (rawSlug tbl (trimQuotes s)) := by
  unfold generateMessageID extractPinyinPrefix rawSlug
  rw [trimQuotes_idem]
  by_cases h0 : trimQuotes s = ""
  · rw [if_pos h0, if_pos h0]
  · rw [if_neg h0, if_neg h0]
    by_cases hc : hasChinese (trimQuotes s) = true
    · rw [if_pos hc, if_pos hc]
      exact slugOrMsg_eq_guard _
    · rw [if_neg hc, if_neg hc]
      exact slugOrMsg_eq_guard _

/-- Claim C8: `isInComment` answers true exactly when some recorded comment
span contains the node's span, comparing (line, column) coordinates
lexicographically. -/
theorem claim_c8_isInComment_iff (sp : Span) (cs : List CommentGroup) :
    isInComment sp cs = true ↔
      ∃ g ∈ cs, ∃ c ∈ g, PosLE c.first sp.first ∧ PosLE sp.last c.last := by
  unfold isInComment PosLE
  simp only [List.any_eq_true, Bool.and_eq_true, Bool.or_eq_true,
    decide_eq_true_eq, beq_iff_eq]
  constructor
  · rintro ⟨g, hg, c, hc, h1, h2⟩
    exact ⟨g, hg, c, hc, by omega, by omega⟩
  · rintro ⟨g, hg, c, hc, h1, h2⟩
    exact ⟨g, hg, c, hc, by omega, by omega⟩

/-! ## Traversal lemmas -/

mutual

theorem tExpr_log (tbl : PinyinTable) (cs : List CommentGroup) :
    ∀ (ctx : Ctx) (e : Expr), (tExpr tbl cs ctx e).log = preorder e
  | ctx, .basicLit k v a b => by
    simp only [tExpr, preorder]
    split <;> rfl
  | _, .ident n => by simp [tExpr, preorder]
  | ctx, .selector x sel => by
    simp only [tExpr, preorder]
    rw [tExpr_log tbl cs _ x]
  | ctx, .call fn args => by
    simp only [tExpr, preorder]
    rw [tExpr_log tbl cs _ fn, tList_log tbl cs _ args]
  | ctx, .unaryAnd x => by
    simp only [tExpr, preorder]
    rw [tExpr_log tbl cs _ x]
  | ctx, .composite ty elts => by
    simp only [tExpr, preorder]
    rw [tExpr_log tbl cs _ ty, tList_log tbl cs _ elts]
  | ctx, .keyValue k v => by
    simp only [tExpr, preorder]
    rw [tExpr_log tbl cs _ k, tExpr_log tbl cs _ v]
  | ctx, .field ty tag => by
    simp only [tExpr, preorder]
    rw [tExpr_log tbl cs _ ty, tExpr_log tbl cs _ tag]
  | ctx, .node tag children => by
    simp only [tExpr, preorder]
    rw [tList_log tbl cs _ children]

theorem tList_log (tbl : PinyinTable) (cs : List CommentGroup) :
    ∀ (parent : Option Expr) (l : ExprList),
      (tList tbl cs parent l).log = preorderList l
  | _, .nil => by simp [tList, preorderList]
  | parent, .cons x rest => by
    simp only [tList, preorderList]
    rw [tExpr_log tbl cs _ x, tList_log tbl cs parent rest]

end

theorem isOtherKeyPair_keyValue (a b : Expr) :
    isOtherKeyPair (.keyValue a b) = isOtherIdent a := by
  cases a <;> rfl

theorem isWrappedByI18nT_basicLit (k : LitKind) (v : String) (a b : Pos)
    (p : Option Expr) :
    isWrappedByI18nT (.basicLit k v a b) p = isOtherParentB p := by
  cases p with
  | none => rfl
  | some e =>
    cases e with
    | keyValue key val => cases key <;> rfl
    | _ => rfl

theorem isInStructTag_eq (ctx : Ctx) :
    isInStructTag ctx =
      ((match ctx.parent with
        | some (.field _ _) => true
        | _ => false) && ctx.isTagChild) := by
  rcases ctx with ⟨p, t⟩
  cases p with
  | none => rfl
  | some e => cases e <;> simp [isInStructTag]

theorem classifyRewrite_ext {a b : Ctx} (h : CtxCompat a b)
    (cs : List CommentGroup) (e : Expr) :
    classifyRewrite cs a e = classifyRewrite cs b e := by
  obtain ⟨h1, h2, h3⟩ := h
  cases e <;> simp only [classifyRewrite]
  case basicLit k v p q =>
    rw [isInStructTag_eq, isInStructTag_eq, isWrappedByI18nT_basicLit,
      isWrappedByI18nT_basicLit, h1, h2, h3]

theorem tExpr_isOtherIdent (tbl : PinyinTable) (cs : List CommentGroup)
    (ctx : Ctx) (e : Expr) :
    isOtherIdent (tExpr tbl cs ctx e).out = isOtherIdent e := by
  cases e <;> try rfl
  case basicLit k v a b =>
    simp only [tExpr]
    split
    · rfl
    · rfl

theorem tExpr_isFieldNode (tbl : PinyinTable) (cs : List CommentGroup)
    (ctx : Ctx) (e : Expr) :
    isFieldNode (tExpr tbl cs ctx e).out = isFieldNode e := by
  cases e <;> try rfl
  case basicLit k v a b =>
    simp only [tExpr]
    split
    · rfl
    · rfl

theorem tExpr_isOtherKeyPair (tbl : PinyinTable) (cs : List CommentGroup)
    (ctx : Ctx) (e : Expr) :
    isOtherKeyPair (tExpr tbl cs ctx e).out = isOtherKeyPair e := by
  cases e <;> try rfl
  case basicLit k v a b =>
    simp only [tExpr]
    split
    · rfl
    · rfl
  case keyValue k v =>
    simp only [tExpr]
    rw [isOtherKeyPair_keyValue, isOtherKeyPair_keyValue, tExpr_isOtherIdent]



theorem wrapNode_fixed (tbl : PinyinTable) (cs : List CommentGroup) (ctx : Ctx)
    (id : String) (hid : ∀ c ∈ id.data, isHan c = false)
    (k : LitKind) (v : String) (a b : Pos) :
    (tExpr tbl cs ctx (wrapNode id (.basicLit k v a b))).out =
        wrapNode id (.basicLit k v a b) ∧
    (tExpr tbl cs ctx (wrapNode id (.basicLit k v a b))).hit = false := by
  have hq : hasChinese (quoted id) = false := hasChinese_quoted hid
  constructor <;>
    simp [wrapNode, idLit, tExpr, tList, classifyRewrite, isInStructTag,
      isWrappedByI18nT, hq]

mutual

theorem tExpr_pass2 (tbl : PinyinTable) (cs : List CommentGroup)
    (hT : ∀ c d, tbl c = some d → isHan d = false) :
    ∀ (a b : Ctx) (e : Expr), CtxCompat a b →
      (tExpr tbl cs b (tExpr tbl cs a e).out).out = (tExpr tbl cs a e).out ∧
      (tExpr tbl cs b (tExpr tbl cs a e).out).hit = false
  | a, b, .basicLit k v p q, hc => by
    by_cases hcl : classifyRewrite cs a (.basicLit k v p q) = true
    · have hout : (tExpr tbl cs a (.basicLit k v p q)).out =
          wrapNode (generateMessageID tbl v) (.basicLit k v p q) := by
        simp [tExpr, hcl]
      rw [hout]
      exact wrapNode_fixed tbl cs b _ (generateMessageID_nonHan tbl hT v) k v p q
    · have hcl2 : classifyRewrite cs a (.basicLit k v p q) = false := by
        revert hcl
        cases classifyRewrite cs a (.basicLit k v p q) <;> simp
      have hout : (tExpr tbl cs a (.basicLit k v p q)).out = .basicLit k v p q := by
        simp [tExpr, hcl2]
      rw [hout]
      have hclb : classifyRewrite cs b (.basicLit k v p q) = false := by
        rw [← classifyRewrite_ext hc]
        exact hcl2
      constructor <;> simp [tExpr, hclb]
  | _, _, .ident n, _ => ⟨rfl, rfl⟩
  | a, b, .selector x sel, hc => by
    have hx := tExpr_pass2 tbl cs hT ⟨some (.selector x sel), false⟩
      ⟨some (.selector (tExpr tbl cs ⟨some (.selector x sel), false⟩ x).out sel),
        false⟩ x ⟨rfl, rfl, rfl⟩
    simp only [tExpr]
    exact ⟨by rw [hx.1], hx.2⟩
  | a, b, .call fn args, hc => by
    have hf := tExpr_pass2 tbl cs hT ⟨some (.call fn args), false⟩
      ⟨some (.call (tExpr tbl cs ⟨some (.call fn args), false⟩ fn).out
        (tList tbl cs (some (.call fn args)) args).out), false⟩ fn ⟨rfl, rfl, rfl⟩
    have ha := tList_pass2 tbl cs hT (some (.call fn args))
      (some (.call (tExpr tbl cs ⟨some (.call fn args), false⟩ fn).out
        (tList tbl cs (some (.call fn args)) args).out)) args ⟨rfl, rfl, rfl⟩
    simp only [tExpr]
    exact ⟨by rw [hf.1, ha.1], by rw [hf.2, ha.2]; rfl⟩
  | a, b, .unaryAnd x, hc => by
    have hx := tExpr_pass2 tbl cs hT ⟨some (.unaryAnd x), false⟩
      ⟨some (.unaryAnd (tExpr tbl cs ⟨some (.unaryAnd x), false⟩ x).out),
        false⟩ x ⟨rfl, rfl, rfl⟩
    simp only [tExpr]
    exact ⟨by rw [hx.1], hx.2⟩
  | a, b, .composite ty elts, hc => by
    have ht := tExpr_pass2 tbl cs hT ⟨some (.composite ty elts), false⟩
      ⟨some (.composite (tExpr tbl cs ⟨some (.composite ty elts), false⟩ ty).out
        (tList tbl cs (some (.composite ty elts)) elts).out), false⟩ ty
      ⟨rfl, rfl, rfl⟩
    have he := tList_pass2 tbl cs hT (some (.composite ty elts))
      (some (.composite (tExpr tbl cs ⟨some (.composite ty elts), false⟩ ty).out
        (tList tbl cs (some (.composite ty elts)) elts).out)) elts
      ⟨rfl, rfl, rfl⟩
    simp only [tExpr]
    exact ⟨by rw [ht.1, he.1], by rw [ht.2, he.2]; rfl⟩
  | a, b, .keyValue k v, hc => by
    have hshape : isOtherParentB (some (.keyValue
        (tExpr tbl cs ⟨some (.keyValue k v), false⟩ k).out
        (tExpr tbl cs ⟨some (.keyValue k v), false⟩ v).out)) =
        isOtherParentB (some (.keyValue k v)) := by
      show isOtherKeyPair _ = isOtherKeyPair _
      rw [isOtherKeyPair_keyValue, isOtherKeyPair_keyValue, tExpr_isOtherIdent]
    have hk := tExpr_pass2 tbl cs hT ⟨some (.keyValue k v), false⟩
      ⟨some (.keyValue (tExpr tbl cs ⟨some (.keyValue k v), false⟩ k).out
        (tExpr tbl cs ⟨some (.keyValue k v), false⟩ v).out), false⟩ k
      ⟨rfl, rfl, hshape.symm⟩
    have hv := tExpr_pass2 tbl cs hT ⟨some (.keyValue k v), false⟩
      ⟨some (.keyValue (tExpr tbl cs ⟨some (.keyValue k v), false⟩ k).out
        (tExpr tbl cs ⟨some (.keyValue k v), false⟩ v).out), false⟩ v
      ⟨rfl, rfl, hshape.symm⟩
    simp only [tExpr]
    exact ⟨by rw [hk.1, hv.1], by rw [hk.2, hv.2]; rfl⟩
  | a, b, .field ty tag, hc => by
    have ht := tExpr_pass2 tbl cs hT ⟨some (.field ty tag), false⟩
      ⟨some (.field (tExpr tbl cs ⟨some (.field ty tag), false⟩ ty).out
        (tExpr tbl cs ⟨some (.field ty tag), true⟩ tag).out), false⟩ ty
      ⟨rfl, rfl, rfl⟩
    have hg := tExpr_pass2 tbl cs hT ⟨some (.field ty tag), true⟩
      ⟨some (.field (tExpr tbl cs ⟨some (.field ty tag), false⟩ ty).out
        (tExpr tbl cs ⟨some (.field ty tag), true⟩ tag).out), true⟩ tag
      ⟨rfl, rfl, rfl⟩
    simp only [tExpr]
    exact ⟨by rw [ht.1, hg.1], by rw [ht.2, hg.2]; rfl⟩
  | a, b, .node tag children, hc => by
    have hch := tList_pass2 tbl cs hT (some (.node tag children))
      (some (.node tag (tList tbl cs (some (.node tag children)) children).out))
      children ⟨rfl, rfl, rfl⟩
    simp only [tExpr]
    exact ⟨by rw [hch.1], hch.2⟩

theorem tList_pass2 (tbl : PinyinTable) (cs : List CommentGroup)
    (hT : ∀ c d, tbl c = some d → isHan d = false) :
    ∀ (p1 p2 : Option Expr) (l : ExprList),
      CtxCompat ⟨p1, false⟩ ⟨p2, false⟩ →
      (tList tbl cs p2 (tList tbl cs p1 l).out).out = (tList tbl cs p1 l).out ∧
      (tList tbl cs p2 (tList tbl cs p1 l).out).hit = false
  | _, _, .nil, _ => ⟨rfl, rfl⟩
  | p1, p2, .cons x rest, hc => by
    have hx := tExpr_pass2 tbl cs hT ⟨p1, false⟩ ⟨p2, false⟩ x hc
    have hr := tList_pass2 tbl cs hT p1 p2 rest hc
    simp only [tList]
    exact ⟨by rw [hx.1, hr.1], by rw [hx.2, hr.2]; rfl⟩

end


/-- Witness for C8 at a concrete span and comment list. -/
theorem claim_c8_witness :
    isInComment ⟨⟨2, 10⟩, ⟨2, 16⟩⟩ [[⟨⟨2, 1⟩, ⟨2, 30⟩⟩]] = true ↔
      ∃ g ∈ [[(⟨⟨2, 1⟩, ⟨2, 30⟩⟩ : Span)]], ∃ c ∈ g,
        PosLE c.first ⟨2, 10⟩ ∧ PosLE (⟨2, 16⟩ : Pos) c.last :=
  claim_c8_isInComment_iff ⟨⟨2, 10⟩, ⟨2, 16⟩⟩ [[⟨⟨2, 1⟩, ⟨2, 30⟩⟩]]

/-! ## Claims about the Tree Rewriter and the Import Ensurer -/

theorem tbl0_nonHan : ∀ c d, tbl0 c = some d → isHan d = false := by
  intro c d h
  unfold tbl0 at h
  split_ifs at h
  all_goals injection h with h2
  all_goals rw [← h2]
  all_goals decide

theorem transformFile_out (tbl : PinyinTable) (f : File) :
    (transformFile tbl f).out =
      ⟨(tList tbl f.comments none f.decls).out,
        if (tList tbl f.comments none f.decls).hit = true
          then ensureI18nImport f.imports else f.imports,
        f.comments⟩ := by
  unfold transformFile
  by_cases hr : (tList tbl f.comments none f.decls).hit = true
  · rw [if_pos hr, if_pos hr]
  · rw [if_neg hr, if_neg hr]

theorem transformFile_hit (tbl : PinyinTable) (f : File) :
    (transformFile tbl f).hit = (tList tbl f.comments none f.decls).hit := by
  unfold transformFile
  by_cases hr : (tList tbl f.comments none f.decls).hit = true
  · rw [if_pos hr, hr]
  · rw [if_neg hr]
    cases h2 : (tList tbl f.comments none f.decls).hit
    · rfl
    · exact absurd h2 hr

theorem transformFile_log (tbl : PinyinTable) (f : File) :
    (transformFile tbl f).log = (tList tbl f.comments none f.decls).log := by
  unfold transformFile
  by_cases hr : (tList tbl f.comments none f.decls).hit = true
  · rw [if_pos hr]
  · rw [if_neg hr]

theorem transformFile_pass2_fix (tbl : PinyinTable) (f : File)
    (hT : ∀ c d, tbl c = some d → isHan d = false) (i : List String) :
    (transformFile tbl
        ⟨(tList tbl f.comments none f.decls).out, i, f.comments⟩).out =
      ⟨(tList tbl f.comments none f.decls).out, i, f.comments⟩ := by
  obtain ⟨hout, hhit⟩ :=
    tList_pass2 tbl f.comments hT none none f.decls ⟨rfl, rfl, rfl⟩
  rw [transformFile_out]
  simp only [hout, hhit]
  simp

/-- Claim C1: applying the rewrite pass a second time to the output of a
first application produces no further change — every literal wrapped by the
first pass is reclassified ineligible, so the tree after the second pass
equals the tree after the first.  (The hypothesis states the static fact
about the external transliteration table: its readings are not themselves
Han characters.) -/
theorem claim_c1_transform_idempotent (tbl : PinyinTable) (f : File)
    (hT : ∀ c d, tbl c = some d → isHan d = false) :
    (transformFile tbl (transformFile tbl f).out).out =
      (transformFile tbl f).out := by
  rw [transformFile_out tbl f]
  exact transformFile_pass2_fix tbl f hT _

/-- Witness for C1 at the repository's own end-to-end test input. -/
theorem claim_c1_witness :
    (transformFile tbl0 (transformFile tbl0 fileHello).out).out =
      (transformFile tbl0 fileHello).out :=
  claim_c1_transform_idempotent tbl0 fileHello tbl0_nonHan



/-- Claim C3: one pass applies the visitor to exactly the nodes of the input
tree, once each, in document pre-order (`preorderList` is defined from the
tree alone); in particular no freshly inserted replacement subtree — nor the
literal embedded in it, beyond its own single original visit — is ever
visited in the same pass. -/
theorem claim_c3_single_preorder_visit (tbl : PinyinTable) (f : File) :
    (transformFile tbl f).log = preorderList f.decls := by
  rw [transformFile_log]
  exact tList_log tbl f.comments none f.decls

theorem ensureI18nImport_has (l : List String) :
    (ensureI18nImport l).any (fun v => v == quoted importPath) = true := by
  unfold ensureI18nImport
  by_cases h : l.any (fun v => v == quoted importPath) = true
  · rw [if_pos h]
    exact h
  · rw [if_neg h]
    simp [List.any_append]

theorem ensureI18nImport_idem (l : List String) :
    ensureI18nImport (ensureI18nImport l) = ensureI18nImport l := by
  by_cases h : l.any (fun v => v == quoted importPath) = true
  · unfold ensureI18nImport
    rw [if_pos h, if_pos h]
  · unfold ensureI18nImport
    rw [if_neg h, if_pos (by simp [List.any_append])]

/-- Claim C4, amended: for every input unit, the declaration importing the
localization dependency is present in the output tree if and only if at
least one string literal was rewritten during the pass or the import was
already present in the input. -/
theorem claim_c4_import_gating (tbl : PinyinTable) (f : File) :
    (transformFile tbl f).out.imports.any (fun v => v == quoted importPath) =
      ((transformFile tbl f).hit ||
        f.imports.any (fun v => v == quoted importPath)) := by
  rw [transformFile_out, transformFile_hit]
  by_cases hr : (tList tbl f.comments none f.decls).hit = true
  · simp [hr, ensureI18nImport_has]
  · have hr2 : (tList tbl f.comments none f.decls).hit = false := by
      simpa using hr
    simp [hr2]

/-- Counterexample for C4 as frozen: a unit that already imports the
dependency and contains no eligible literal keeps the import although zero
rewrites occurred, so "present iff rewritten" fails. -/
theorem claim_c4_counterexample :
    ¬(((transformFile tbl0 fileImported).out.imports.any
          (fun v => v == quoted importPath) = true) ↔
        ((transformFile tbl0 fileImported).hit = true)) := by
  decide

theorem isOtherParentB_iff (p : Option Expr) :
    isOtherParentB p = true ↔
      ∃ v, p = some (.keyValue (.ident "Other") v) := by
  cases p with
  | none => simp [isOtherParentB]
  | some e =>
    unfold isOtherParentB
    cases e <;> simp [isOtherKeyPair]
    case keyValue key val =>
      cases key <;> simp

/-- Claim C2, amended: rule 2 declares a string literal ineligible exactly
when its immediate parent is a key-value pair keyed by the identifier
`Other`; no enclosing call-with-composite shape is consulted. -/
theorem claim_c2_already_wrapped_shape (k : LitKind) (v : String) (a b : Pos)
    (parent : Option Expr) :
    isWrappedByI18nT (.basicLit k v a b) parent = true ↔
      ∃ val, parent = some (.keyValue (.ident "Other") val) := by
  rw [isWrappedByI18nT_basicLit]
  exact isOtherParentB_iff parent

/-- Witness for C2 at the shape the rewriter itself produces. -/
theorem claim_c2_witness :
    isWrappedByI18nT litHello (some (.keyValue (.ident "Other") litHello)) =
        true ↔
      ∃ val, (some (.keyValue (.ident "Other") litHello) : Option Expr) =
          some (.keyValue (.ident "Other") val) :=
  claim_c2_already_wrapped_shape .string "\"你好世界\"" ⟨3, 7⟩ ⟨3, 15⟩
    (some (.keyValue (.ident "Other") litHello))

/-- Counterexample for C2 as frozen: an `Other`-keyed pair inside a plain
composite literal, enclosed in no call at all, is still recognized by the
code's rule 2 (while the spec's enclosing-shape recognizer rejects it), and
the transform indeed leaves such a unit entirely unchanged. -/
theorem claim_c2_counterexample :
    isWrappedByI18nT litHello (some (.keyValue (.ident "Other") litHello)) =
        true ∧
    specAlreadyWrapped [.keyValue (.ident "Other") litHello,
      .composite (.ident "T")
        (.cons (.keyValue (.ident "Other") litHello) .nil)] = false ∧
    (transformFile tbl0 fileOtherNoCall).hit = false ∧
    (transformFile tbl0 fileOtherNoCall).out = fileOtherNoCall := by
  refine ⟨rfl, rfl, by decide, by decide⟩

/-- Claim C9: the replacement node built for an eligible literal embeds the
original literal node itself (value and source span unchanged) as its
fallback-text `Other` field, and the one generated id appears both as the
`MessageID` lookup key and as the fallback message's `ID`. -/
theorem claim_c9_replacement_embeds_original (tbl : PinyinTable)
    (cs : List CommentGroup) (ctx : Ctx) (k : LitKind) (v : String)
    (a b : Pos) (h : classifyRewrite cs ctx (.basicLit k v a b) = true) :
    fallbackOf (tExpr tbl cs ctx (.basicLit k v a b)).out =
        some (.basicLit k v a b) ∧
    messageIDOf (tExpr tbl cs ctx (.basicLit k v a b)).out =
        some (idLit (generateMessageID tbl v)) ∧
    innerIDOf (tExpr tbl cs ctx (.basicLit k v a b)).out =
        some (idLit (generateMessageID tbl v)) := by
  have hout : (tExpr tbl cs ctx (.basicLit k v a b)).out =
      wrapNode (generateMessageID tbl v) (.basicLit k v a b) := by
    simp [tExpr, h]
  rw [hout]
  exact ⟨rfl, rfl, rfl⟩

/-- Witness for C9 at the repository's end-to-end test literal. -/
theorem claim_c9_witness :
    classifyRewrite [] ⟨none, false⟩ litHello = true ∧
    (fallbackOf (tExpr tbl0 [] ⟨none, false⟩ litHello).out = some litHello ∧
      messageIDOf (tExpr tbl0 [] ⟨none, false⟩ litHello).out =
        some (idLit (generateMessageID tbl0 "\"你好世界\"")) ∧
      innerIDOf (tExpr tbl0 [] ⟨none, false⟩ litHello).out =
        some (idLit (generateMessageID tbl0 "\"你好世界\""))) :=
  ⟨by decide, claim_c9_replacement_embeds_original tbl0 [] ⟨none, false⟩
    .string "\"你好世界\"" ⟨3, 7⟩ ⟨3, 15⟩ (by decide)⟩

/-- Claim C10: a string literal whose immediate parent is an `Other`-keyed
pair is never rewritten, in any context — even when the pair sits in a plain
composite unrelated to any localization call, and whatever the literal's
content. -/
theorem claim_c10_other_pair_untouched (tbl : PinyinTable)
    (cs : List CommentGroup) (ctx : Ctx) (k : LitKind) (v : String)
    (a b : Pos) :
    (tExpr tbl cs ctx
        (.keyValue (.ident "Other") (.basicLit k v a b))).out =
      .keyValue (.ident "Other") (.basicLit k v a b) ∧
    (tExpr tbl cs ctx
        (.keyValue (.ident "Other") (.basicLit k v a b))).hit = false := by
  have hcl : classifyRewrite cs
      ⟨some (.keyValue (.ident "Other") (.basicLit k v a b)), false⟩
      (.basicLit k v a b) = false := by
    simp [classifyRewrite, isWrappedByI18nT]
  constructor <;> simp [tExpr, hcl]

end StrI18n
